import Mathlib

/-!
Verification of the trooper terminal file manager (src/app.rs) against its
natural-language specification.  The definitions below are a shallow
embedding of the Rust source: each `def` mirrors the function of the same
name in `src/app.rs`, with filesystem and terminal effects represented
explicitly (effect traces, oracle parameters for copy success, `Option`
results where the Rust code can panic via `unwrap` or out-of-bounds
indexing).
-/

set_option maxRecDepth 10000

namespace Trooper

/-- Mirrors `enum AppActions` in src/app.rs. -/
inductive AppActions where
  | MoveDown
  | MoveUp
  | MoveUpDir
  | EnterDir
  | Quit
  | MoveToTop
  | MoveToBottom
  | CopyFiles
  | CutFiles
  | PasteFiles
  | OpenCommandMode
  | ToggleVisualMode
  | DeleteFile
  | CreateBookmark
  | DeleteBookmark
  | ToggleBookmark
  | MoveToLeftPanel
  | MoveToRightPanel
  | MoveEntry
  | ToggleHiddenFiles
  | CreateDir
deriving DecidableEq

/-- Mirrors `enum YankMode`. -/
inductive YankMode where
  | Copying
  | Cutting
deriving DecidableEq

/-- Mirrors `enum ActivePanel`. -/
inductive ActivePanel where
  | Main
  | Bookmarks
deriving DecidableEq

/-- Mirrors `enum ActiveMode`. -/
inductive ActiveMode where
  | Normal
  | Command
  | Visual
deriving DecidableEq

/-- Mirrors `crossterm::event::KeyCode` restricted to the constructors this
program produces (`Char` and `Null`). -/
inductive KeyCode where
  | char (c : Char)
  | null
deriving DecidableEq

/-- Mirrors `crossterm::event::KeyEvent`.  The only modifier this program
ever attaches is CONTROL (see `str_to_key_events`), so the modifier set is
modelled as a single `ctrl` flag. -/
structure KeyEvent where
  code : KeyCode
  ctrl : Bool
deriving DecidableEq

abbrev Chord := List KeyEvent

/-- A chord-to-action binding table.  The Rust code uses
`HashMap<Vec<KeyEvent>, AppActions>`; it is modelled as an association
list whose keys are kept unique by `insertTable`. -/
abbrev BindingTable := List (Chord × AppActions)

/-- `HashMap::get` on the model table. -/
def lookupTable (t : BindingTable) (c : Chord) : Option AppActions :=
  (t.find? (fun e => e.1 == c)).map (fun e => e.2)

/-- `HashMap::insert` on the model table: a later insertion with the same
key replaces the earlier entry. -/
def insertTable (t : BindingTable) (k : Chord) (v : AppActions) : BindingTable :=
  t.filter (fun e => !(e.1 == k)) ++ [(k, v)]

/-- The chord-resolution step of `App::on_key` (src/app.rs:187-251) for the
Normal and Visual modes, which share the identical code path on their
respective tables.  The incoming event is appended to `key_chord`; an exact
table hit fires the action and clears the buffer; otherwise the buffer is
kept only when it is a prefix of some bound chord, and cleared (dropping the
triggering event) when it is not. -/
def on_key_chord (t : BindingTable) (key_chord : Chord) (k : KeyEvent) :
    Option AppActions × Chord :=
  let chord := key_chord ++ [k]
  match lookupTable t chord with
  | some action => (some action, [])
  | none =>
    -- for chord in bindings.keys(): chord.len() >= len && chord[0..len] == key_chord
    let starting := t.any (fun e => chord.isPrefixOf e.1)
    if starting then (none, chord) else (none, [])

/-- Feeding a sequence of key events through `on_key` starting from a given
pending buffer; returns the per-event fired actions and the final buffer. -/
def feedFrom (t : BindingTable) (st : Chord) :
    List KeyEvent → List (Option AppActions) × Chord
  | [] => ([], st)
  | k :: ks =>
    let r := on_key_chord t st k
    let rest := feedFrom t r.2 ks
    (r.1 :: rest.1, rest.2)

/-- Feeding a sequence of key events starting from an empty pending buffer. -/
def feedChord (t : BindingTable) (ks : List KeyEvent) :
    List (Option AppActions) × Chord :=
  feedFrom t [] ks

/-- Shorthand for the key event of a plain (unmodified) character. -/
def ch (c : Char) : KeyEvent := ⟨KeyCode.char c, false⟩

/-! ## Binding configuration loading (`read_config`, src/app.rs:866-922) -/

/-- Mirrors `AppActions::from_str` derived by `strum::EnumString`: the exact
variant name maps to the variant, anything else is an error. -/
def appActionFromStr (s : String) : Option AppActions :=
  if s = "MoveDown" then some .MoveDown
  else if s = "MoveUp" then some .MoveUp
  else if s = "MoveUpDir" then some .MoveUpDir
  else if s = "EnterDir" then some .EnterDir
  else if s = "Quit" then some .Quit
  else if s = "MoveToTop" then some .MoveToTop
  else if s = "MoveToBottom" then some .MoveToBottom
  else if s = "CopyFiles" then some .CopyFiles
  else if s = "CutFiles" then some .CutFiles
  else if s = "PasteFiles" then some .PasteFiles
  else if s = "OpenCommandMode" then some .OpenCommandMode
  else if s = "ToggleVisualMode" then some .ToggleVisualMode
  else if s = "DeleteFile" then some .DeleteFile
  else if s = "CreateBookmark" then some .CreateBookmark
  else if s = "DeleteBookmark" then some .DeleteBookmark
  else if s = "ToggleBookmark" then some .ToggleBookmark
  else if s = "MoveToLeftPanel" then some .MoveToLeftPanel
  else if s = "MoveToRightPanel" then some .MoveToRightPanel
  else if s = "MoveEntry" then some .MoveEntry
  else if s = "ToggleHiddenFiles" then some .ToggleHiddenFiles
  else if s = "CreateDir" then some .CreateDir
  else none

/-- Helper for the regex `<[.|[^<>]]+>|.` of `str_to_key_events`
(src/app.rs:816-846): after an opening `<`, collect the characters of the
potential token body (anything other than `<` and `>`) up to a closing `>`.
Returns the body and the input remaining after the `>`, or `none` when no
closing `>` is reachable. -/
def takeInner : List Char → Option (List Char × List Char)
  | [] => none
  | c :: cs =>
    if c = '>' then some ([], cs)
    else if c = '<' then none
    else match takeInner cs with
      | some (inn, rest) => some (c :: inn, rest)
      | none => none

/-- The scan of `captures_iter` for the regex `<[.|[^<>]]+>|.`: at each
position a `<...>` token (with a non-empty body free of `<` and `>`) is
preferred, otherwise the single character matches.  The fuel is the length
of the input; every step consumes at least one character and one unit of
fuel, so the initial fuel never runs out. -/
def strTokensF : Nat → List Char → List (List Char)
  | 0, _ => []
  | _, [] => []
  | f + 1, '<' :: cs =>
    match takeInner cs with
    | some (inn, rest) =>
      if inn.isEmpty then ['<'] :: strTokensF f cs
      else ('<' :: inn ++ ['>']) :: strTokensF f rest
    | none => ['<'] :: strTokensF f cs
  | f + 1, c :: cs => [c] :: strTokensF f cs

def strTokens (s : List Char) : List (List Char) :=
  strTokensF s.length s

/-- The per-symbol branch of `str_to_key_events` (src/app.rs:822-842). -/
def tokToEvents (sym : List Char) : List KeyEvent :=
  match sym with
  | [c] => [⟨KeyCode.char c, false⟩]
  | _ =>
    if sym = ['<', 'l', 't', '>'] then [⟨KeyCode.char '<', false⟩]
    else if sym = ['<', 'g', 't', '>'] then [⟨KeyCode.char '>', false⟩]
    else if sym = ['<', 'S', 'p', 'a', 'c', 'e', '>'] then [⟨KeyCode.char ' ', false⟩]
    else
      match sym with
      | [_, b, _, d, _] =>
        if b = 'C' ∨ b = 'c' then [⟨KeyCode.char d, true⟩] else []
      | _ => []

/-- Mirrors `str_to_key_events` (src/app.rs:816-846). -/
def str_to_key_events (s : String) : Chord :=
  (strTokens s.toList).flatMap tokToEvents

/-- One parsed INI section: the ordered list of `key = value` entries
(`configparser` stores values as `Option<String>`). -/
abbrev IniSection := List (String × Option String)

/-- A parsed INI file: section name to entries.  `user_map.get("normal")
.unwrap_or(&HashMap::new())` in the source corresponds to `sectionOf`. -/
abbrev IniMap := List (String × IniSection)

def sectionOf (m : IniMap) (name : String) : IniSection :=
  ((m.find? (fun e => e.1 == name)).map (fun e => e.2)).getD []

/-- The loop body of the insertion loops of `read_config`
(src/app.rs:899-908 and 910-919): insert `str_to_key_events(k) -> action`
when the entry's value parses as an `AppActions`, and drop the entry
otherwise. -/
def insertEntry (t : BindingTable) (kv : String × Option String) : BindingTable :=
  match kv.2 with
  | some vStr =>
    match appActionFromStr vStr with
    | some action => insertTable t (str_to_key_events kv.1) action
    | none => t
  | none => t

/-- The insertion loop of `read_config`: iterate the chained default and
user entries of a section; later insertions with an identical chord
overwrite earlier ones. -/
def buildTable (entries : IniSection) : BindingTable :=
  entries.foldl insertEntry []

/-- Mirrors `read_config` (src/app.rs:866-922).  The INI texts are taken in
already-parsed form: `userParse` is the outcome of `config.read` on the
user file's text and is consulted only when the file exists
(`p.exists()`); `defaultParse` is the outcome of `config.read` on the
compiled-in default configuration.  The two tables are built by iterating
the default section's entries chained with the user section's entries. -/
def read_config (userExists : Bool) (userParse : Except String IniMap)
    (defaultParse : Except String IniMap) :
    Except String (BindingTable × BindingTable) := do
  let user_map ← if userExists then userParse else .ok []
  let default_map ← defaultParse
  return (buildTable (sectionOf default_map "normal" ++ sectionOf user_map "normal"),
          buildTable (sectionOf default_map "visual" ++ sectionOf user_map "visual"))

/-- Specification-side helper for stating the merge theorems: the action an
entry contributes to a given chord (`none` when its value does not parse or
its key converts to a different chord). -/
def entryAction (e : String × Option String) (c : Chord) : Option AppActions :=
  match e.2 with
  | some vStr =>
    match appActionFromStr vStr with
    | some a => if str_to_key_events e.1 = c then some a else none
    | none => none
  | none => none

/-- Specification-side helper for stating the merge theorems: the action of
the last entry of `es` whose chord converts to `c` and whose value parses,
or `none` when there is no such entry. -/
def lastActionFor (es : IniSection) (c : Chord) : Option AppActions :=
  match es with
  | [] => none
  | e :: rest =>
    match lastActionFor rest c with
    | some a => some a
    | none => entryAction e c

/-! ## Command-line engine (src/app.rs:593-734) -/

/-- Strings of the program (buffers, file and path names), as their
character lists; Lean's packed `String` functions do not reduce inside
the kernel, so the character-list view keeps every definition here
evaluable by `decide`. -/
abbrev Name := List Char

/-- `Vec` indexing with a Rust `i32 as usize` cast: a negative index
sign-extends to a huge value and is out of bounds, and any out-of-bounds
access panics (`none`). -/
def vecGet {α : Type} (l : List α) (i : Int) : Option α :=
  if h : 0 ≤ i ∧ i.toNat < l.length then some (l.get ⟨i.toNat, h.2⟩) else none

/-- The fixed command table filled in `App::new` (src/app.rs:122-130). -/
def commandsList : List (Name × AppActions) :=
  [("delete".toList, .DeleteFile), ("up".toList, .MoveUp),
   ("bookmark".toList, .CreateBookmark), ("del_bookmark".toList, .DeleteBookmark),
   ("bm".toList, .CreateBookmark), ("dbm".toList, .DeleteBookmark),
   ("mv".toList, .MoveEntry), ("mkdir".toList, .CreateDir)]

/-- `self.commands.get(cmd)`. -/
def commandsGet (cmd : Name) : Option AppActions :=
  ((commandsList.find? (fun e => e.1 == cmd)).map (fun e => e.2))

/-- `self.commands.keys()`.  The HashMap iteration order is arbitrary; the
completion code sorts the matches, which makes the order immaterial, and
the names are pairwise distinct. -/
def commandNames : List Name := commandsList.map (fun e => e.1)

/-- Mirrors `matching_strings` (src/app.rs:924-934): keep, in order, the
strings having `pre` as a literal leading substring. -/
def matching_strings (pre : Name) (strings : List Name) : List Name :=
  strings.filter (fun s => pre.isPrefixOf s)

/-- Rust `str` ordering (lexicographic; byte order and character order
agree on the ASCII command names used here). -/
def leName (a b : Name) : Bool :=
  match a, b with
  | [], _ => true
  | _ :: _, [] => false
  | c :: cs, d :: ds => if c = d then leName cs ds else decide (c < d)

/-- Insertion step of `sortNames`. -/
def insertSorted (x : Name) : List Name → List Name
  | [] => [x]
  | y :: ys => if leName x y then x :: y :: ys else y :: insertSorted x ys

/-- `self.command_matches.sort()`: Rust's ascending stable sort by `Ord`.
The inputs here are duplicate-free command names, on which every sort
producing an ascending permutation agrees, so insertion sort is an exact
model. -/
def sortNames : List Name → List Name
  | [] => []
  | x :: xs => insertSorted x (sortNames xs)

/-- Rust `String::split(" ")` on the command buffer: split on every space,
keeping empty fields; the empty string yields one empty field. -/
def splitOnChar (sep : Char) : Name → List Name
  | [] => [[]]
  | c :: cs =>
    match splitOnChar sep cs with
    | [] => [[]]
    | f :: rest => if c = sep then [] :: f :: rest else (c :: f) :: rest

/-- The command-mode slice of the `App` state (src/app.rs:98-110). -/
structure AppCmd where
  active_mode : ActiveMode
  command_buffer : Name
  command_buffer_tmp : Name
  command_history : List Name
  command_history_index : Int
  command_completion_index : Int
  command_matches : List Name
deriving DecidableEq

/-- The command-mode fields of `App::new` (src/app.rs:145-158). -/
def initApp : AppCmd :=
  { active_mode := .Normal
    command_buffer := []
    command_buffer_tmp := []
    command_history := []
    command_history_index := -1
    command_completion_index := -1
    command_matches := [] }

/-- The `ActiveMode::Command` arm of `on_key` (src/app.rs:204-212): a
character is appended to the buffer and any active completion cycle is
reset. -/
def on_key_command (s : AppCmd) (c : Char) : AppCmd :=
  match s.active_mode with
  | .Command =>
    { s with
      command_buffer := s.command_buffer ++ [c]
      command_matches := []
      command_buffer_tmp := []
      command_completion_index := -1 }
  | _ => s

/-- The `AppActions::OpenCommandMode` arm of `handle_action`
(src/app.rs:494-497), restricted to the command-state fields. -/
def open_command_mode (s : AppCmd) : AppCmd :=
  { s with command_buffer := [], active_mode := .Command }

/-- Mirrors `App::on_esc` (src/app.rs:573-591). -/
def on_esc (s : AppCmd) : AppCmd :=
  match s.active_mode with
  | .Visual => { s with active_mode := .Normal }
  | .Command =>
    if s.command_completion_index ≠ -1 then
      { s with
        command_completion_index := -1
        command_matches := []
        command_buffer := s.command_buffer_tmp
        command_buffer_tmp := [] }
    else
      { s with active_mode := .Normal, command_buffer := [] }
  | _ => s

/-- Mirrors `App::on_enter` (src/app.rs:593-625).  The second component is
the action dispatched through `handle_action` together with its argument
list (`none` when the first word is not a registered command); none of
the registered commands' actions touches the command-state fields, so the
dispatch itself leaves `AppCmd` unchanged.  `words.get(0)` is always
`some` because `split` returns at least one (possibly empty) word.
Accepting a completion indexes `command_matches`, hence the `Option`
result (an out-of-bounds index would panic). -/
def on_enter (s : AppCmd) : Option (AppCmd × Option (AppActions × List Name)) :=
  match s.active_mode with
  | .Command =>
    let words := splitOnChar ' ' s.command_buffer
    if s.command_completion_index ≠ -1 ∧ s.command_matches ≠ [] then
      match vecGet s.command_matches s.command_completion_index with
      | some m =>
        some ({ s with
                command_buffer := m
                command_completion_index := -1
                command_matches := []
                command_buffer_tmp := [] }, none)
      | none => none
    else
      match words.head? with
      | some cmd =>
        let dispatched := (commandsGet cmd).map (fun a => (a, words.tail))
        let s := { s with command_history := s.command_history ++ [s.command_buffer] }
        some (on_esc s, dispatched)
      | none => some (s, none)
  | _ => some (s, none)

/-- Mirrors `App::on_down` (src/app.rs:638-657). -/
def on_down (s : AppCmd) : Option AppCmd :=
  match s.active_mode with
  | .Command =>
    if s.command_completion_index = -1 then
      if s.command_history_index > 0 then
        let idx := s.command_history_index - 1
        match vecGet s.command_history ((s.command_history.length : Int) - idx - 1) with
        | some entry => some { s with command_history_index := idx, command_buffer := entry }
        | none => none
      else if s.command_history_index = 0 then
        some { s with command_history_index := -1, command_buffer := s.command_buffer_tmp }
      else some s
    else some s
  | _ => some s

/-- Mirrors `App::on_up` (src/app.rs:659-679). -/
def on_up (s : AppCmd) : Option AppCmd :=
  match s.active_mode with
  | .Command =>
    if s.command_completion_index = -1 then
      if s.command_history_index + 1 < (s.command_history.length : Int) then
        let tmp := if s.command_history_index = -1 then s.command_buffer
                   else s.command_buffer_tmp
        let idx := s.command_history_index + 1
        match vecGet s.command_history ((s.command_history.length : Int) - idx - 1) with
        | some entry =>
          some { s with
                 command_buffer_tmp := tmp
                 command_history_index := idx
                 command_buffer := entry }
        | none => none
      else some s
    else some s
  | _ => some s

/-- Mirrors `App::scroll_completion` (src/app.rs:715-734).  The Rust code
indexes `command_matches` with an `i32 as usize` cast; `vecGet` makes the
possible panic explicit as `none`. -/
def scroll_completion (s : AppCmd) (amount : Int) : Option AppCmd :=
  let i := s.command_completion_index + amount
  if i = (s.command_matches.length : Int) then
    some { s with
           command_completion_index := -1
           command_buffer := s.command_buffer_tmp
           command_buffer_tmp := [] }
  else if i < -1 then
    let i2 := (s.command_matches.length : Int) - 1
    match vecGet s.command_matches i2 with
    | some m => some { s with command_completion_index := i2, command_buffer := m }
    | none => none
  else if i = -1 then
    some { s with
           command_completion_index := -1
           command_buffer := s.command_buffer_tmp
           command_buffer_tmp := [] }
  else
    match vecGet s.command_matches i with
    | some m => some { s with command_completion_index := i, command_buffer := m }
    | none => none

/-- Mirrors `App::on_tab` (src/app.rs:698-713). -/
def on_tab (s : AppCmd) : Option AppCmd :=
  match s.active_mode with
  | .Command =>
    let s :=
      if s.command_completion_index = -1 then
        { s with
          command_buffer_tmp := s.command_buffer
          command_matches := sortNames (matching_strings s.command_buffer commandNames) }
      else s
    scroll_completion s 1
  | _ => some s

/-- Mirrors `App::on_shift_tab` (src/app.rs:681-696). -/
def on_shift_tab (s : AppCmd) : Option AppCmd :=
  match s.active_mode with
  | .Command =>
    let s :=
      if s.command_completion_index = -1 then
        { s with
          command_buffer_tmp := s.command_buffer
          command_matches := sortNames (matching_strings s.command_buffer commandNames) }
      else s
    scroll_completion s (-1)
  | _ => some s

/-- `k` consecutive Tab presses. -/
def iterTab : Nat → AppCmd → Option AppCmd
  | 0, s => some s
  | k + 1, s => (iterTab k s).bind on_tab

/-! ## File names and the paste collision policy (src/app.rs:358-416) -/

/-- Splits a name at its last `.`: returns the part before and after it, or
`none` when the name contains no `.`. -/
def splitLastDot : Name → Option (Name × Name)
  | [] => none
  | c :: cs =>
    match splitLastDot cs with
    | some (st, ex) => some (c :: st, ex)
    | none => if c = '.' then some ([], cs) else none

/-- Rust's `Path::file_stem` / `Path::extension` on a file name: the stem is
the whole name when there is no `.`, or when the only `.` is the leading
character (hidden files); otherwise the portion before the final `.`, with
the portion after it as the extension. -/
def splitStemExt (s : Name) : Name × Option Name :=
  match splitLastDot s with
  | none => (s, none)
  | some (st, ex) => if st = [] then (s, none) else (st, some ex)

/-- One round of the file collision rewrite (src/app.rs:392-401):
`format!("{} (Copy).{}", stem, extension.unwrap_or(""))`. -/
def fileRename (s : Name) : Name :=
  let p := splitStemExt s
  p.1 ++ (" (Copy).".toList ++ (p.2.getD []))

/-- One round of the directory collision rewrite (src/app.rs:371-376):
`format!("{} (Copy)", stem)`. -/
def dirRename (s : Name) : Name :=
  (splitStemExt s).1 ++ " (Copy)".toList

/-- The length of the longest name in a directory listing. -/
def maxLen (ex : List Name) : Nat :=
  ex.foldr (fun n acc => max n.length acc) 0

/-- The `while dest.exists()` loop for files, with explicit fuel: while the
candidate name exists, rewrite it with `fileRename`.  Each rewrite makes
the name strictly longer, so `maxLen ex + 1` units of fuel are enough to
leave every existing name behind (`resolveFileDest_not_mem` below proves
the fuel never runs out, so this equals the source's unbounded loop). -/
def resolveFileFuel : Nat → List Name → Name → Name
  | 0, _, n => n
  | f + 1, ex, n => if n ∈ ex then resolveFileFuel f ex (fileRename n) else n

def resolveFileDest (ex : List Name) (n : Name) : Name :=
  resolveFileFuel (maxLen ex + 1) ex n

/-- The `while dest.exists()` loop for directories, with explicit fuel.
Each `dirRename` either removes one non-leading dot or (once none remain
to strip) grows the name by seven characters, so the chosen fuel bound is
sufficient for the loop of the source to have exited. -/
def resolveDirFuel : Nat → List Name → Name → Name
  | 0, _, n => n
  | f + 1, ex, n => if n ∈ ex then resolveDirFuel f ex (dirRename n) else n

def resolveDirDest (ex : List Name) (n : Name) : Name :=
  resolveDirFuel ((n.count '.' + 1) * (maxLen ex + 2)) ex n

/-- Splits a path at its last `/` (mirror of `splitLastDot`). -/
def splitLastSlash : Name → Option (Name × Name)
  | [] => none
  | c :: cs =>
    match splitLastSlash cs with
    | some (st, rest) => some (c :: st, rest)
    | none => if c = '/' then some ([], cs) else none

/-- Rust's `Path::file_name` on the absolute paths stored in the yank
register: the component after the last `/`, or the whole name when there
is no `/`. -/
def fileNameOf (p : Name) : Name :=
  match splitLastSlash p with
  | some (_, rest) => rest
  | none => p

/-- Rust's `Path::parent`: `none` for the filesystem root `/` (and for the
empty path), the portion before the last `/` otherwise (`/a` has parent
`/`, a single relative component has parent the empty path). -/
def parentPath (p : Name) : Option Name :=
  if p = ['/'] then none
  else
    match splitLastSlash p with
    | some ([], _) => some ['/']
    | some (st, _) => some st
    | none => if p = [] then none else some []

/-- Mirrors `App::move_up_dir` (src/app.rs:270-274): the new current
directory is `self.current_dir.parent().unwrap()`; `none` models the
panic of `unwrap` when the parent does not exist (filesystem root). -/
def move_up_dir (current_dir : Name) : Option Name :=
  parentPath current_dir

/-- A filesystem effect performed by `paste_yanked_files`. -/
inductive FsOp where
  | copyDir (src dest : Name)
  | copyFile (src dest : Name)
  | removeDirAll (p : Name)
  | removeFile (p : Name)
deriving DecidableEq

/-- The body of the per-path loop of `paste_yanked_files`
(src/app.rs:364-413) for one non-empty source path `p`, as the list of
filesystem effects it performs.  `ex` is the set of names present in the
destination directory while the collision loop runs, `srcIsDir` is the
source's `metadata` kind, and `copyOk` tells whether the copy call
(`fs_extra::dir::copy` or `fs::copy`) reports success — the copy outcome
is environmental, so it is an oracle parameter.  The source is removed
(recursively for a directory) exactly when the copy succeeded and the
yank mode is `Cutting`; a failed copy performs nothing further. -/
def pasteOne (yank_mode : Option YankMode) (ex : List Name) (srcIsDir : Bool)
    (copyOk : Bool) (p : Name) : List FsOp :=
  let base := fileNameOf p
  if srcIsDir then
    let dest := resolveDirDest ex base
    FsOp.copyDir p dest ::
      (if copyOk then
        match yank_mode with
        | some .Cutting => [FsOp.removeDirAll p]
        | _ => []
      else [])
  else
    let dest := resolveFileDest ex base
    FsOp.copyFile p dest ::
      (if copyOk then
        match yank_mode with
        | some .Cutting => [FsOp.removeFile p]
        | _ => []
      else [])

/-- Mirrors `App::paste_yanked_files` (src/app.rs:358-416) as an effect
trace.  `regContents` is the result of reading the yank-register scratch
file: `none` when the file does not exist, in which case
`fs::read_to_string(..).unwrap()` panics (modelled as `none`).  Otherwise
the contents are split on newlines and every non-empty line is processed
by `pasteOne`; `srcIsDir` and `copyOk` are the environment oracles for
each source path.  (The destination listing consulted by the collision
loop is passed per call; its evolution across iterations does not affect
the properties proved below.) -/
def paste_yanked_files (regContents : Option Name) (yank_mode : Option YankMode)
    (srcIsDir : Name → Bool) (copyOk : Name → Bool) (ex : List Name) :
    Option (List FsOp) :=
  match regContents with
  | none => none
  | some contents =>
    some ((splitOnChar '\n' contents).foldl
      (fun acc l =>
        if 0 < l.length then acc ++ pasteOne yank_mode ex (srcIsDir l) (copyOk l) l
        else acc)
      [])

/-! ## Panel-aware action dispatch (`handle_action`, src/app.rs:428-571) -/

/-- The mode / panel / yank / flag slice of the `App` state. -/
structure AppCtl where
  active_panel : ActivePanel
  active_mode : ActiveMode
  yank_mode : Option YankMode
  show_hidden_files : Bool
  should_quit : Bool
deriving DecidableEq

/-- Mirrors `App::handle_action` (src/app.rs:428-571) restricted to the
`AppCtl` fields.  Arms that only scroll the UI or touch the filesystem
(`MoveDown`, `MoveUp`, `MoveUpDir`, `EnterDir`, `MoveToTop`,
`MoveToBottom`, `PasteFiles`, `DeleteFile`, `MoveEntry`, `CreateDir`,
bookmark edits) leave these fields unchanged; `copy_files` and
`cut_files` set the yank mode (src/app.rs:307-340) and their arms then
set the mode back to Normal (src/app.rs:485-492). -/
def handle_action (s : AppCtl) (action : AppActions) : AppCtl :=
  match s.active_panel with
  | .Main =>
    match action with
    | .Quit => { s with should_quit := true }
    | .CopyFiles => { s with yank_mode := some .Copying, active_mode := .Normal }
    | .CutFiles => { s with yank_mode := some .Cutting, active_mode := .Normal }
    | .OpenCommandMode => { s with active_mode := .Command }
    | .ToggleBookmark => { s with active_panel := .Bookmarks }
    | .MoveToLeftPanel => { s with active_panel := .Bookmarks }
    | .ToggleHiddenFiles => { s with show_hidden_files := !s.show_hidden_files }
    | .ToggleVisualMode =>
      if s.active_mode = .Normal then { s with active_mode := .Visual }
      else if s.active_mode = .Visual then { s with active_mode := .Normal }
      else s
    | _ => s
  | .Bookmarks =>
    match action with
    | .EnterDir => { s with active_panel := .Main }
    | .Quit => { s with should_quit := true }
    | .ToggleBookmark =>
      match s.active_panel with
      | .Main => { s with active_panel := .Bookmarks }
      | .Bookmarks => { s with active_panel := .Main }
    | .OpenCommandMode => { s with active_mode := .Command }
    | .MoveToRightPanel => { s with active_panel := .Main }
    | _ => s

/-! ## Theorems -/

/-- `List.isPrefixOf` agrees with the existence of a completing suffix. -/
theorem isPrefixOf_exists {α : Type} [DecidableEq α] (l₁ l₂ : List α) :
    l₁.isPrefixOf l₂ = true ↔ ∃ t, l₁ ++ t = l₂ := by
  induction l₁ generalizing l₂ with
  | nil => simp [List.isPrefixOf]
  | cons a as ih =>
    cases l₂ with
    | nil => simp [List.isPrefixOf]
    | cons b bs =>
      simp only [List.isPrefixOf, Bool.and_eq_true, beq_iff_eq, ih, List.cons_append,
        List.cons.injEq]
      constructor
      · rintro ⟨hab, t, ht⟩
        exact ⟨t, hab, ht⟩
      · rintro ⟨t, hab, ht⟩
        exact ⟨hab, t, ht⟩

/-- A successful `lookupTable` exhibits a table entry. -/
theorem lookupTable_mem {t : BindingTable} {c : Chord} {a : AppActions}
    (h : lookupTable t c = some a) : (c, a) ∈ t := by
  unfold lookupTable at h
  cases hf : t.find? (fun e => e.1 == c) with
  | none => rw [hf] at h; simp at h
  | some e =>
    rw [hf] at h
    simp at h
    have hmem := List.mem_of_find?_eq_some hf
    have hpred := List.find?_some hf
    simp only [beq_iff_eq] at hpred
    have : e = (c, a) := by
      cases e with
      | mk e1 e2 => simp only at hpred; simp only at h; rw [hpred, h]
    rwa [this] at hmem

/-- C6: after an event that makes the pending chord buffer neither an exact
match of nor a prefix of any bound chord of the active mode's table, the
buffer is empty and no action fires — the triggering event is dropped, not
re-evaluated as the start of a new chord. -/
theorem c6_reset_clears_buffer (t : BindingTable) (buf : Chord) (k : KeyEvent)
    (hno : lookupTable t (buf ++ [k]) = none)
    (hnopre : ∀ e ∈ t, (buf ++ [k]).isPrefixOf e.1 = false) :
    on_key_chord t buf k = (none, []) := by
  have hany : t.any (fun e => (buf ++ [k]).isPrefixOf e.1) = false := by
    rw [List.any_eq_false]
    intro e he
    simp [hnopre e he]
  simp [on_key_chord, hno, hany]

/-- C6 witness: with only `gg` bound, feeding `q` after a pending `g`
clears the buffer and fires nothing. -/
theorem c6_reset_clears_buffer_witness :
    on_key_chord [([ch 'g', ch 'g'], AppActions.MoveToTop)] [ch 'g'] (ch 'q') =
      (none, []) :=
  c6_reset_clears_buffer _ _ _ (by decide) (by decide)

/-- C1 counterexample: in a table binding `g`, `gg` and `ggg` (loadable from
a user configuration), `gg` is a strict prefix of `ggg` and both are bound,
yet feeding exactly `gg`'s events fires `g`'s action (`MoveToTop`) twice and
never fires `gg`'s action (`CopyFiles`): the claim's universal statement
fails when a strict prefix of `c1` is itself bound. -/
theorem c1_counterexample :
    feedChord [([ch 'g'], AppActions.MoveToTop),
               ([ch 'g', ch 'g'], AppActions.CopyFiles),
               ([ch 'g', ch 'g', ch 'g'], AppActions.Quit)]
        [ch 'g', ch 'g'] =
      ([some AppActions.MoveToTop, some AppActions.MoveToTop], []) ∧
    some AppActions.CopyFiles ∉
      (feedChord [([ch 'g'], AppActions.MoveToTop),
                  ([ch 'g', ch 'g'], AppActions.CopyFiles),
                  ([ch 'g', ch 'g', ch 'g'], AppActions.Quit)]
        [ch 'g', ch 'g']).1 := by
  decide

/-- Unfolding equation of `feedFrom` on a cons. -/
theorem feedFrom_cons (t : BindingTable) (st : Chord) (k : KeyEvent) (ks : List KeyEvent) :
    feedFrom t st (k :: ks) =
      ((on_key_chord t st k).1 :: (feedFrom t (on_key_chord t st k).2 ks).1,
       (feedFrom t (on_key_chord t st k).2 ks).2) := rfl

/-- Feeding the events of a bound chord `c1` none of whose strict prefixes
is bound: every proper-prefix step stays pending and the final event fires
`c1`'s action with the buffer cleared. -/
theorem feedFrom_fires_bound_chord (t : BindingTable) (c1 : Chord) (a : AppActions)
    (h1 : lookupTable t c1 = some a)
    (hmin : ∀ e ∈ t, e.1.isPrefixOf c1 = true → e.1 = c1) :
    ∀ suf pre, pre ++ suf = c1 → suf ≠ [] →
      feedFrom t pre suf = (List.replicate (suf.length - 1) none ++ [some a], []) := by
  intro suf
  induction suf with
  | nil => intro pre _ hne; exact absurd rfl hne
  | cons k rest ih =>
    intro pre hsum _
    cases rest with
    | nil =>
      have hc : pre ++ [k] = c1 := hsum
      simp only [feedFrom, on_key_chord, hc, h1]
      simp
    | cons k2 rest2 =>
      -- the buffer pre ++ [k] is a strict prefix of c1
      have hsplit : (pre ++ [k]) ++ (k2 :: rest2) = c1 := by
        simpa [List.append_assoc] using hsum
      have hlook : lookupTable t (pre ++ [k]) = none := by
        cases hl : lookupTable t (pre ++ [k]) with
        | none => rfl
        | some act =>
          exfalso
          have hm := lookupTable_mem hl
          have hpre : (pre ++ [k]).isPrefixOf c1 = true :=
            (isPrefixOf_exists _ _).mpr ⟨k2 :: rest2, hsplit⟩
          have := hmin _ hm hpre
          simp only at this
          have hlen : (pre ++ [k]).length = c1.length := by rw [this]
          rw [← hsplit] at hlen
          simp [List.length_append] at hlen
      have hany : t.any (fun e => ((pre ++ [k]).isPrefixOf e.1)) = true := by
        rw [List.any_eq_true]
        refine ⟨(c1, a), lookupTable_mem h1, ?_⟩
        exact (isPrefixOf_exists _ _).mpr ⟨k2 :: rest2, hsplit⟩
      have hstep : on_key_chord t pre k = (none, pre ++ [k]) := by
        unfold on_key_chord
        simp only [hlook, hany]
        simp
      have hrest := ih (pre ++ [k]) hsplit (by simp)
      rw [feedFrom_cons, hstep]
      simp only
      rw [hrest]
      simp [List.replicate_succ]

/-- C1 (amended): for chords `c1, c2` bound in the active mode's table with
`c1` a nonempty strict prefix of `c2` and no strict prefix of `c1` itself
bound, feeding exactly `c1`'s key events fires `c1`'s action at its final
event — never waiting for further input that might complete `c2` — and
clears the pending buffer. -/
theorem c1_exact_match_fires (t : BindingTable) (c1 c2 : Chord) (a b : AppActions)
    (h1 : lookupTable t c1 = some a)
    (h2 : lookupTable t c2 = some b)
    (hpre : ∃ s, s ≠ [] ∧ c1 ++ s = c2)
    (hne : c1 ≠ [])
    (hmin : ∀ e ∈ t, e.1.isPrefixOf c1 = true → e.1 = c1) :
    feedChord t c1 = (List.replicate (c1.length - 1) none ++ [some a], []) :=
  feedFrom_fires_bound_chord t c1 a h1 hmin c1 [] rfl hne

/-- C1 witness: `gg` and `ggg` bound (and nothing shorter): feeding `gg`
fires `CopyFiles` on the second event with the buffer cleared. -/
theorem c1_exact_match_fires_witness :
    feedChord [([ch 'g', ch 'g'], AppActions.CopyFiles),
               ([ch 'g', ch 'g', ch 'g'], AppActions.Quit)]
        [ch 'g', ch 'g'] =
      (List.replicate 1 none ++ [some AppActions.CopyFiles], []) :=
  c1_exact_match_fires _ _ [ch 'g', ch 'g', ch 'g'] _ AppActions.Quit
    (by decide) (by decide) ⟨[ch 'g'], by decide, by decide⟩ (by decide) (by decide)

/-- `find?` is unchanged by filtering with a predicate implied by the
search predicate. -/
theorem find?_filter_of_imp {α : Type} (l : List α) (p q : α → Bool)
    (h : ∀ x, p x = true → q x = true) :
    (l.filter q).find? p = l.find? p := by
  induction l with
  | nil => rfl
  | cons a as ih =>
    by_cases hq : q a = true
    · by_cases hp : p a = true
      · simp [List.filter_cons, hq, List.find?_cons_of_pos, hp]
      · have hp' : p a = false := by simpa using hp
        simp [List.filter_cons, hq, List.find?_cons_of_neg, hp', ih]
    · have hq' : q a = false := by simpa using hq
      have hp' : p a = false := by
        cases hpa : p a with
        | false => rfl
        | true => exact absurd (h a hpa) hq
      simp [List.filter_cons, hq', List.find?_cons_of_neg, hp', ih]

/-- `HashMap::insert` then `get`: the inserted chord maps to the new value,
every other chord is unaffected. -/
theorem lookupTable_insertTable (t : BindingTable) (k : Chord) (v : AppActions)
    (c : Chord) :
    lookupTable (insertTable t k v) c = if c = k then some v else lookupTable t c := by
  unfold lookupTable insertTable
  rw [List.find?_append]
  by_cases hck : c = k
  · subst hck
    have h1 : (t.filter (fun e => !(e.1 == c))).find? (fun e => e.1 == c) = none := by
      rw [List.find?_eq_none]
      intro x hx
      have hcond := (List.mem_filter.mp hx).2
      simpa using hcond
    simp [h1, List.find?]
  · have h2 : (([(k, v)] : BindingTable).find? (fun e => e.1 == c)) = none := by
      have hkc : (k == c) = false := by
        simpa using fun h : k = c => hck h.symm
      simp [List.find?, hkc]
    have h3 : (t.filter (fun e => !(e.1 == k))).find? (fun e => e.1 == c) =
        t.find? (fun e => e.1 == c) := by
      apply find?_filter_of_imp
      intro x hx
      simp only [beq_iff_eq] at hx
      simp only [Bool.not_eq_true', beq_eq_false_iff_ne, ne_eq, hx]
      exact hck
    rw [h2, h3]
    cases t.find? (fun e => e.1 == c) <;> simp [hck]

/-- Inserting one configuration entry then looking a chord up: the entry's
own contribution wins, otherwise the previous table answers. -/
theorem lookupTable_insertEntry (t : BindingTable) (e : String × Option String)
    (c : Chord) :
    lookupTable (insertEntry t e) c =
      match entryAction e c with
      | some a => some a
      | none => lookupTable t c := by
  obtain ⟨k0, v0⟩ := e
  unfold insertEntry entryAction
  cases v0 with
  | none => rfl
  | some vStr =>
    cases ha : appActionFromStr vStr with
    | none => simp [ha]
    | some a =>
      by_cases hc : str_to_key_events k0 = c
      · simp [ha, lookupTable_insertTable, hc]
      · have hc2 : ¬ c = str_to_key_events k0 := fun h => hc h.symm
        simp [ha, lookupTable_insertTable, hc, hc2]

/-- Folding configuration entries over any starting table: the last
matching entry of the list wins, otherwise the starting table answers. -/
theorem lookupTable_foldl_insertEntry (es : IniSection) (t0 : BindingTable)
    (c : Chord) :
    lookupTable (es.foldl insertEntry t0) c =
      match lastActionFor es c with
      | some a => some a
      | none => lookupTable t0 c := by
  induction es generalizing t0 with
  | nil => rfl
  | cons e rest ih =>
    rw [List.foldl_cons, ih]
    cases h : lastActionFor rest c with
    | some a => simp [lastActionFor, h]
    | none => simp [lastActionFor, h, lookupTable_insertEntry]

/-- `lastActionFor` over chained default-then-user entries: a user
contribution wins, otherwise the defaults answer. -/
theorem lastActionFor_append (d u : IniSection) (c : Chord) :
    lastActionFor (d ++ u) c =
      match lastActionFor u c with
      | some a => some a
      | none => lastActionFor d c := by
  induction d with
  | nil => cases h : lastActionFor u c <;> simp [h, lastActionFor]
  | cons e rest ih =>
    show (match lastActionFor (rest ++ u) c with
          | some a => some a
          | none => entryAction e c) = _
    rw [ih]
    cases h : lastActionFor u c with
    | some a => simp [h]
    | none => simp [h, lastActionFor]

/-- C2: loading the bindings merges default and user entries per mode: a
user entry whose chord coincides with a default entry's chord overrides the
default's action; a chord no user entry contributes keeps exactly the
defaults' (last) action — in particular defaults are never removed and user
entries with fresh chords are added; and when the user configuration file
is absent the load succeeds (no error) and yields exactly the tables built
from the default configuration alone. -/
theorem c2_config_merge (um dm : IniMap) (c : Chord) (nt vt : BindingTable)
    (h : read_config true (.ok um) (.ok dm) = .ok (nt, vt)) :
    (∀ au, lastActionFor (sectionOf um "normal") c = some au →
        lookupTable nt c = some au) ∧
    (lastActionFor (sectionOf um "normal") c = none →
        lookupTable nt c = lastActionFor (sectionOf dm "normal") c) ∧
    (∀ au, lastActionFor (sectionOf um "visual") c = some au →
        lookupTable vt c = some au) ∧
    (lastActionFor (sectionOf um "visual") c = none →
        lookupTable vt c = lastActionFor (sectionOf dm "visual") c) ∧
    read_config false (.ok um) (.ok dm) =
      .ok (buildTable (sectionOf dm "normal"), buildTable (sectionOf dm "visual")) := by
  have hval : read_config true (.ok um) (.ok dm) =
      .ok (buildTable (sectionOf dm "normal" ++ sectionOf um "normal"),
           buildTable (sectionOf dm "visual" ++ sectionOf um "visual")) := rfl
  rw [hval] at h
  have hnt : nt = buildTable (sectionOf dm "normal" ++ sectionOf um "normal") := by
    cases h; rfl
  have hvt : vt = buildTable (sectionOf dm "visual" ++ sectionOf um "visual") := by
    cases h; rfl
  subst hnt; subst hvt
  refine ⟨?_, ?_, ?_, ?_, ?_⟩
  · intro au hu
    rw [buildTable, lookupTable_foldl_insertEntry, lastActionFor_append, hu]
  · intro hu
    rw [buildTable, lookupTable_foldl_insertEntry, lastActionFor_append, hu]
    cases h2 : lastActionFor (sectionOf dm "normal") c <;> simp [h2, lookupTable]
  · intro au hu
    rw [buildTable, lookupTable_foldl_insertEntry, lastActionFor_append, hu]
  · intro hu
    rw [buildTable, lookupTable_foldl_insertEntry, lastActionFor_append, hu]
    cases h2 : lastActionFor (sectionOf dm "visual") c <;> simp [h2, lookupTable]
  · show Except.ok (buildTable (sectionOf dm "normal" ++ sectionOf ([] : IniMap) "normal"),
        buildTable (sectionOf dm "visual" ++ sectionOf ([] : IniMap) "visual")) = _
    simp [sectionOf]

/-- C2 witness: the user section rebinds `j` to `Quit` and adds `Q`; the
merged normal table answers `Quit` for `j` (override), keeps the default
`MoveUp` for `k` (no user entry), and the absent-user-file load returns the
default tables. -/
theorem c2_config_merge_witness :
    (∀ au, lastActionFor (sectionOf
        [("normal", [("j", some "Quit"), ("Q", some "Quit")])] "normal")
        (str_to_key_events "j") = some au →
      lookupTable (buildTable
        ([("j", some "MoveDown"), ("k", some "MoveUp")] ++
          [("j", some "Quit"), ("Q", some "Quit")])) (str_to_key_events "j") = some au) ∧
    (lastActionFor (sectionOf
        [("normal", [("j", some "Quit"), ("Q", some "Quit")])] "normal")
        (str_to_key_events "j") = none →
      lookupTable (buildTable
        ([("j", some "MoveDown"), ("k", some "MoveUp")] ++
          [("j", some "Quit"), ("Q", some "Quit")])) (str_to_key_events "j") =
        lastActionFor [("j", some "MoveDown"), ("k", some "MoveUp")]
          (str_to_key_events "j")) ∧
    (∀ au, lastActionFor (sectionOf
        [("normal", [("j", some "Quit"), ("Q", some "Quit")])] "visual")
        (str_to_key_events "j") = some au →
      lookupTable (buildTable ([] ++ [])) (str_to_key_events "j") = some au) ∧
    (lastActionFor (sectionOf
        [("normal", [("j", some "Quit"), ("Q", some "Quit")])] "visual")
        (str_to_key_events "j") = none →
      lookupTable (buildTable ([] ++ [])) (str_to_key_events "j") =
        lastActionFor ([] : IniSection) (str_to_key_events "j")) ∧
    read_config false
      (.ok [("normal", [("j", some "Quit"), ("Q", some "Quit")])])
      (.ok [("normal", [("j", some "MoveDown"), ("k", some "MoveUp")])]) =
      .ok (buildTable (sectionOf
            [("normal", [("j", some "MoveDown"), ("k", some "MoveUp")])] "normal"),
          buildTable (sectionOf
            [("normal", [("j", some "MoveDown"), ("k", some "MoveUp")])] "visual")) :=
  c2_config_merge
    [("normal", [("j", some "Quit"), ("Q", some "Quit")])]
    [("normal", [("j", some "MoveDown"), ("k", some "MoveUp")])]
    (str_to_key_events "j") _ _ rfl

/-- A successful `splitLastDot` is a genuine decomposition at a dot. -/
theorem splitLastDot_eq {s st ex : Name} (h : splitLastDot s = some (st, ex)) :
    s = st ++ '.' :: ex := by
  induction s generalizing st ex with
  | nil => simp [splitLastDot] at h
  | cons c cs ih =>
    unfold splitLastDot at h
    cases hr : splitLastDot cs with
    | some p =>
      rw [hr] at h
      obtain ⟨st0, ex0⟩ := p
      simp only [Option.some.injEq, Prod.mk.injEq] at h
      obtain ⟨h1, h2⟩ := h
      subst h1; subst h2
      simp [ih hr]
    | none =>
      rw [hr] at h
      by_cases hc : c = '.'
      · subst hc
        rw [if_pos rfl] at h
        simp only [Option.some.injEq, Prod.mk.injEq] at h
        obtain ⟨rfl, rfl⟩ := h
        rfl
      · simp [hc] at h

/-- Each file collision rewrite makes the name strictly longer (by at least
seven characters, the length of `" (Copy)"`). -/
theorem fileRename_length (s : Name) : s.length + 7 ≤ (fileRename s).length := by
  have hlen : (fileRename s).length =
      (splitStemExt s).1.length + 8 + ((splitStemExt s).2.getD []).length := by
    simp [fileRename, List.length_append]
    omega
  rw [hlen]
  unfold splitStemExt
  cases hr : splitLastDot s with
  | none => simp
  | some p =>
    obtain ⟨st, ex⟩ := p
    have hs := splitLastDot_eq hr
    by_cases hst : st = []
    · simp [hst]
    · have : s.length = st.length + 1 + ex.length := by
        rw [hs]; simp [List.length_append]; omega
      simp only [hst, if_false, ite_false]
      simp [this]
      omega

/-- A member of a listing is no longer than the longest listed name. -/
theorem length_le_maxLen {ex : List Name} {n : Name} (h : n ∈ ex) :
    n.length ≤ maxLen ex := by
  induction ex with
  | nil => cases h
  | cons x xs ih =>
    rcases List.mem_cons.mp h with h1 | h2
    · subst h1
      simp [maxLen]
    · have := ih h2
      simp only [maxLen, List.foldr_cons] at *
      omega

/-- With enough fuel to outgrow every existing name, the file collision
loop ends at a name that does not collide. -/
theorem resolveFileFuel_not_mem :
    ∀ (f : Nat) (ex : List Name) (n : Name), maxLen ex < f + n.length →
      resolveFileFuel f ex n ∉ ex := by
  intro f
  induction f with
  | zero =>
    intro ex n hlt hmem
    simp only [resolveFileFuel] at hmem
    have := length_le_maxLen hmem
    omega
  | succ f ih =>
    intro ex n hlt
    unfold resolveFileFuel
    by_cases hmem : n ∈ ex
    · simp only [hmem, if_pos rfl, if_true]
      apply ih
      have := fileRename_length n
      omega
    · simpa [hmem] using hmem

/-- C3: the paste collision policy for files.  Pasting `note.txt` into a
directory already holding `note.txt` targets `note (Copy).txt`; pasting
again targets `note (Copy) (Copy).txt`; in general the destination chosen
by `paste_yanked_files` for a file is obtained by rewriting the stem with
`" (Copy).<ext>"` until the name is free, and it never collides with an
existing name in the destination listing. -/
theorem c3_paste_collision :
    (∀ (ex : List Name) (n : Name), resolveFileDest ex n ∉ ex) ∧
    (∀ (ym : Option YankMode) (ex : List Name) (cOk : Bool) (p : Name),
      (pasteOne ym ex false cOk p).head? =
        some (FsOp.copyFile p (resolveFileDest ex (fileNameOf p)))) ∧
    resolveFileDest ["note.txt".toList] "note.txt".toList = "note (Copy).txt".toList ∧
    resolveFileDest ["note.txt".toList, "note (Copy).txt".toList] "note.txt".toList =
      "note (Copy) (Copy).txt".toList := by
  refine ⟨?_, fun ym ex cOk p => rfl, by decide, by decide⟩
  intro ex n
  exact resolveFileFuel_not_mem (maxLen ex + 1) ex n (by omega)

/-- C3 witness: the collision-free destination at a concrete listing. -/
theorem c3_paste_collision_witness :
    resolveFileDest ["note.txt".toList] "note.txt".toList ∉ ["note.txt".toList] :=
  c3_paste_collision.1 ["note.txt".toList] "note.txt".toList

/-- C4: during a paste with the yank register in `Cutting` mode, the source
path is removed exactly when its copy reports success; the removal is the
recursive `remove_dir_all` for a directory source (never the plain file
removal), and a failed copy leaves the trace with the copy attempt only —
the source is untouched. -/
theorem c4_cut_removes_source_iff (ex : List Name) (isDir copyOk : Bool) (p : Name) :
    ((FsOp.removeFile p ∈ pasteOne (some .Cutting) ex isDir copyOk p ∨
      FsOp.removeDirAll p ∈ pasteOne (some .Cutting) ex isDir copyOk p) ↔
        copyOk = true) ∧
    (isDir = true → FsOp.removeFile p ∉ pasteOne (some .Cutting) ex isDir copyOk p) ∧
    (isDir = true → copyOk = true →
      FsOp.removeDirAll p ∈ pasteOne (some .Cutting) ex isDir copyOk p) ∧
    (isDir = false → copyOk = true →
      FsOp.removeFile p ∈ pasteOne (some .Cutting) ex isDir copyOk p) ∧
    (copyOk = false → pasteOne (some .Cutting) ex isDir copyOk p =
      [if isDir then FsOp.copyDir p (resolveDirDest ex (fileNameOf p))
       else FsOp.copyFile p (resolveFileDest ex (fileNameOf p))]) := by
  cases isDir <;> cases copyOk <;> simp [pasteOne]

/-- C4 witness: a successful cut-paste of a directory removes it
recursively. -/
theorem c4_cut_removes_source_iff_witness :
    FsOp.removeDirAll "/a/d".toList ∈
      pasteOne (some .Cutting) [] true true "/a/d".toList :=
  (c4_cut_removes_source_iff [] true true "/a/d".toList).2.2.1 rfl rfl

/-- C5 (evaluation at the failing inputs): `MoveUpDir` at the filesystem
root is a panic, not a no-op — `current_dir.parent().unwrap()` unwraps
`None` — and `PasteFiles` when the yank scratch file was never written
panics in `fs::read_to_string(..).unwrap()`; only when the scratch file
exists with empty contents is the paste the no-op the claim describes. -/
theorem c5_root_and_empty_register :
    move_up_dir "/".toList = none ∧
    (∀ (ym : Option YankMode) (isDir copyOk : Name → Bool) (ex : List Name),
      paste_yanked_files none ym isDir copyOk ex = none) ∧
    (∀ (ym : Option YankMode) (isDir copyOk : Name → Bool) (ex : List Name),
      paste_yanked_files (some "".toList) ym isDir copyOk ex = some []) :=
  ⟨by decide, fun ym isDir copyOk ex => rfl, fun ym isDir copyOk ex => rfl⟩

/-- C10: dispatching `CopyFiles` or `CutFiles` on the Main panel always
lands in Normal mode (in particular, yanking or cutting in Visual mode
exits Visual mode without a separate `ToggleVisualMode` or Esc), and sets
the yank register mode accordingly. -/
theorem c10_yank_returns_to_normal :
    ∀ (mode : ActiveMode) (ym : Option YankMode) (hid qt : Bool),
      (handle_action ⟨.Main, mode, ym, hid, qt⟩ .CopyFiles).active_mode = .Normal ∧
      (handle_action ⟨.Main, mode, ym, hid, qt⟩ .CutFiles).active_mode = .Normal ∧
      (handle_action ⟨.Main, mode, ym, hid, qt⟩ .CopyFiles).yank_mode = some .Copying ∧
      (handle_action ⟨.Main, mode, ym, hid, qt⟩ .CutFiles).yank_mode = some .Cutting :=
  fun mode ym hid qt => ⟨rfl, rfl, rfl, rfl⟩

/-- `leName` is total. -/
theorem leName_total : ∀ a b : Name, leName a b = true ∨ leName b a = true
  | [], _ => Or.inl rfl
  | _ :: _, [] => Or.inr rfl
  | c :: cs, d :: ds => by
    by_cases hcd : c = d
    · subst hcd
      simpa [leName] using leName_total cs ds
    · rcases lt_or_gt_of_ne hcd with h | h
      · left; simp [leName, hcd, h]
      · right
        have hdc : ¬ d = c := fun e => hcd e.symm
        simp [leName, hdc, h]

/-- `leName` is transitive. -/
theorem leName_trans : ∀ {a b c : Name},
    leName a b = true → leName b c = true → leName a c = true
  | [], _, _, _, _ => rfl
  | _ :: _, [], _, h1, _ => by simp [leName] at h1
  | _ :: _, _ :: _, [], _, h2 => by simp [leName] at h2
  | x :: xs, y :: ys, z :: zs, h1, h2 => by
    by_cases hxy : x = y
    · subst hxy
      by_cases hyz : x = z
      · subst hyz
        simp only [leName, if_pos rfl] at *
        exact leName_trans h1 h2
      · simp only [leName, if_pos rfl] at h1
        simp only [leName, hyz, if_false, ite_false] at h2 ⊢
        exact h2
    · by_cases hyz : y = z
      · subst hyz
        simp only [leName, hxy, ite_false] at h1 ⊢
        exact h1
      · simp only [leName, hxy, hyz, ite_false, decide_eq_true_eq] at h1 h2
        have hxz : x < z := lt_trans h1 h2
        have hxz' : ¬ x = z := ne_of_lt hxz
        simp [leName, hxz', hxz]

/-- Membership through `insertSorted`. -/
theorem mem_insertSorted (x z : Name) :
    ∀ (l : List Name), z ∈ insertSorted x l ↔ z = x ∨ z ∈ l := by
  intro l
  induction l with
  | nil => simp [insertSorted]
  | cons y ys ih =>
    by_cases h : leName x y = true
    · simp [insertSorted, h]
    · simp [insertSorted, h, ih]
      tauto

/-- `insertSorted` preserves sortedness. -/
theorem pairwise_insertSorted (x : Name) :
    ∀ (l : List Name), List.Pairwise (fun a b => leName a b = true) l →
      List.Pairwise (fun a b => leName a b = true) (insertSorted x l) := by
  intro l
  induction l with
  | nil => intro _; simp [insertSorted]
  | cons y ys ih =>
    intro hl
    rcases List.pairwise_cons.mp hl with ⟨hy, hys⟩
    by_cases hxy : leName x y = true
    · rw [insertSorted, if_pos hxy]
      refine List.pairwise_cons.mpr ⟨?_, hl⟩
      intro z hz
      rcases List.mem_cons.mp hz with h1 | h2
      · subst h1; exact hxy
      · exact leName_trans hxy (hy z h2)
    · rw [insertSorted, if_neg hxy]
      refine List.pairwise_cons.mpr ⟨?_, ih hys⟩
      intro z hz
      rcases (mem_insertSorted x z ys).mp hz with h1 | h2
      · rw [h1]
        rcases leName_total x y with h | h
        · exact absurd h hxy
        · exact h
      · exact hy z h2

/-- The match list the completion code builds is lexicographically sorted. -/
theorem sortNames_pairwise :
    ∀ l : List Name, List.Pairwise (fun a b => leName a b = true) (sortNames l)
  | [] => List.Pairwise.nil
  | x :: xs => pairwise_insertSorted x (sortNames xs) (sortNames_pairwise xs)

/-- `getD` at an in-bounds index is `get`. -/
theorem getD_eq_get {α : Type} (l : List α) (d : α) :
    ∀ {n : Nat} (h : n < l.length), l.getD n d = l.get ⟨n, h⟩ := by
  induction l with
  | nil => intro n h; simp at h
  | cons a as ih =>
    intro n h
    cases n with
    | zero => rfl
    | succ m => exact ih (Nat.lt_of_succ_lt_succ h)

/-- `vecGet` at an in-bounds natural index. -/
theorem vecGet_natCast {α : Type} (l : List α) (i : Nat) (h : i < l.length) (d : α) :
    vecGet l (i : Int) = some (l.getD i d) := by
  unfold vecGet
  rw [dif_pos]
  · rw [getD_eq_get l d (by simpa using h)]
    simp
  · constructor
    · exact Int.natCast_nonneg i
    · simpa using h

/-- `scroll_completion (+1)` onto an in-bounds index selects that match. -/
theorem scroll_completion_to_index (st : AppCmd) (i : Nat)
    (hsum : st.command_completion_index + 1 = (i : Int))
    (hi : i < st.command_matches.length) :
    scroll_completion st 1 = some
      { st with
        command_completion_index := (i : Int)
        command_buffer := st.command_matches.getD i [] } := by
  unfold scroll_completion
  rw [hsum]
  rw [if_neg (by omega)]
  rw [if_neg (by omega)]
  rw [if_neg (by omega)]
  rw [vecGet_natCast st.command_matches i hi []]

/-- `scroll_completion (+1)` off the end of the matches resets the cycle
and restores the snapshot. -/
theorem scroll_completion_to_reset (st : AppCmd)
    (hsum : st.command_completion_index + 1 = (st.command_matches.length : Int)) :
    scroll_completion st 1 = some
      { st with
        command_completion_index := -1
        command_buffer := st.command_buffer_tmp
        command_buffer_tmp := [] } := by
  unfold scroll_completion
  rw [hsum, if_pos rfl]

/-- The state after `j + 1` consecutive Tab presses from an idle Command
state: the buffer shows the `j`-th sorted match and the cursor sits at
`j`. -/
theorem iterTab_cycle_state (s : AppCmd) (hm : s.active_mode = .Command)
    (hc : s.command_completion_index = -1) :
    ∀ j : Nat, j < (sortNames (matching_strings s.command_buffer commandNames)).length →
      iterTab (j + 1) s = some
        { s with
          command_buffer :=
            (sortNames (matching_strings s.command_buffer commandNames)).getD j []
          command_buffer_tmp := s.command_buffer
          command_completion_index := (j : Int)
          command_matches := sortNames (matching_strings s.command_buffer commandNames) } := by
  intro j
  induction j with
  | zero =>
    intro hj
    have h0 : iterTab 1 s = on_tab s := rfl
    rw [h0]
    unfold on_tab
    simp only [hm]
    rw [if_pos hc]
    rw [scroll_completion_to_index _ 0 (by simp [hc]) (by simpa using hj)]
  | succ j ih =>
    intro hj
    have hj2 : j < (sortNames (matching_strings s.command_buffer commandNames)).length := by
      omega
    have hstep : iterTab (j + 1 + 1) s = (iterTab (j + 1) s).bind on_tab := rfl
    rw [hstep, ih hj2]
    show on_tab _ = _
    unfold on_tab
    simp only
    rw [if_neg (by omega)]
    rw [scroll_completion_to_index _ (j + 1) (by push_cast; ring) (by simpa using hj)]
    simp only [hm]

/-- C7: completion cycling in Command mode.  From an idle completion state
whose buffer has `n ≥ 1` sorted matches among the registered command
names, the `(j+1)`-th consecutive Tab (1-based press `k = j+1 ≤ n`) puts
the `j`-th lexicographically sorted match in the buffer with the cursor at
`j`, and the `(n+1)`-th press restores the original uncommitted text with
the cursor back at `-1` — a cycle of size `n + 1`. -/
theorem c7_completion_cycle (s : AppCmd) (hm : s.active_mode = .Command)
    (hc : s.command_completion_index = -1)
    (hn : 1 ≤ (sortNames (matching_strings s.command_buffer commandNames)).length) :
    (∀ j : Nat, j < (sortNames (matching_strings s.command_buffer commandNames)).length →
      (iterTab (j + 1) s).map
          (fun st => (st.command_buffer, st.command_completion_index)) =
        some ((sortNames (matching_strings s.command_buffer commandNames)).getD j [],
              (j : Int))) ∧
    ((iterTab ((sortNames (matching_strings s.command_buffer commandNames)).length + 1) s).map
        (fun st => (st.command_buffer, st.command_completion_index)) =
      some (s.command_buffer, -1)) ∧
    List.Pairwise (fun a b => leName a b = true)
      (sortNames (matching_strings s.command_buffer commandNames)) := by
  refine ⟨?_, ?_, sortNames_pairwise _⟩
  · intro j hj
    rw [iterTab_cycle_state s hm hc j hj]
    rfl
  · obtain ⟨j0, hj0⟩ : ∃ j0,
        (sortNames (matching_strings s.command_buffer commandNames)).length = j0 + 1 :=
      ⟨(sortNames (matching_strings s.command_buffer commandNames)).length - 1, by omega⟩
    rw [hj0]
    have hstep : iterTab (j0 + 1 + 1) s = (iterTab (j0 + 1) s).bind on_tab := rfl
    rw [hstep, iterTab_cycle_state s hm hc j0 (by omega)]
    show (on_tab _).map _ = _
    unfold on_tab
    simp only
    rw [if_neg (by omega)]
    rw [scroll_completion_to_reset _ (by push_cast; omega)]
    simp only [hm]
    rfl

/-- C7 witness: with buffer `b`, the two matches are `bm`, `bookmark`; the
third Tab press restores `b` with the cursor at `-1`. -/
theorem c7_completion_cycle_witness :
    (iterTab ((sortNames (matching_strings "b".toList commandNames)).length + 1)
        { initApp with active_mode := .Command, command_buffer := "b".toList }).map
        (fun st => (st.command_buffer, st.command_completion_index)) =
      some ("b".toList, -1) :=
  (c7_completion_cycle
    { initApp with active_mode := .Command, command_buffer := "b".toList }
    rfl rfl (by decide)).2.1

/-- C8 (evaluation at the failing input): in Command mode with buffer
`xyz` — which no registered command name has as a leading substring, so
`completionMatches` is empty — a Shift-Tab press with no active completion
runs `command_matches[(len-1) as usize]` = `command_matches[-1 as usize]`,
an out-of-bounds index (panic), instead of ending at cursor `-1` with the
buffer restored. -/
theorem c8_shift_tab_empty_matches :
    matching_strings "xyz".toList commandNames = [] ∧
    on_shift_tab
      { initApp with active_mode := .Command, command_buffer := "xyz".toList } =
      none := by
  decide

/-- C9: submitting in Command mode with no completion active appends the
verbatim buffer to history — also when the first word is not a registered
command, in which case nothing is dispatched — then clears the buffer and
returns to Normal mode.  Concretely: submitting `abc` (an unknown command)
records it; afterwards typing `d` and pressing Up shows `abc`, and Down
restores `d`. -/
theorem c9_enter_records_history (s : AppCmd) (w : Name) (ws : List Name)
    (hm : s.active_mode = .Command)
    (hc : s.command_completion_index = -1)
    (hw : splitOnChar ' ' s.command_buffer = w :: ws) :
    on_enter s = some
      ({ s with
         command_history := s.command_history ++ [s.command_buffer]
         active_mode := .Normal
         command_buffer := [] },
       (commandsGet w).map (fun a => (a, ws))) ∧
    ((on_enter (on_key_command (on_key_command (on_key_command
        (open_command_mode initApp) 'a') 'b') 'c')).map
      (fun r => (r.1.command_history, r.2))) = some ([['a', 'b', 'c']], none) ∧
    ((on_enter (on_key_command (on_key_command (on_key_command
        (open_command_mode initApp) 'a') 'b') 'c')).bind
      (fun r => on_up (on_key_command (open_command_mode r.1) 'd'))).map
        (fun st => st.command_buffer) = some ['a', 'b', 'c'] ∧
    (((on_enter (on_key_command (on_key_command (on_key_command
        (open_command_mode initApp) 'a') 'b') 'c')).bind
      (fun r => on_up (on_key_command (open_command_mode r.1) 'd'))).bind
        on_down).map (fun st => st.command_buffer) = some ['d'] := by
  refine ⟨?_, by decide, by decide, by decide⟩
  obtain ⟨m0, buf, tmp, hist, hidx, cidx, mts⟩ := s
  simp only at hm hc hw
  subst hm; subst hc
  unfold on_enter
  simp only [hw]
  rw [if_neg (by simp)]
  simp [on_esc]

/-- C9 witness: submitting the unknown command `abc` appends it verbatim to
the history, clears the buffer, dispatches nothing and returns to Normal
mode. -/
theorem c9_enter_records_history_witness :
    on_enter ⟨.Command, ['a', 'b', 'c'], [], [], -1, -1, []⟩ = some
      (⟨.Normal, [], [], [['a', 'b', 'c']], -1, -1, []⟩,
       (commandsGet ['a', 'b', 'c']).map (fun a => (a, ([] : List Name)))) :=
  (c9_enter_records_history ⟨.Command, ['a', 'b', 'c'], [], [], -1, -1, []⟩
    ['a', 'b', 'c'] [] rfl rfl (by decide)).1

end Trooper
